import Mathlib

/-
  Verification development for the evaluation core of the engine-q shell:
  shallow embedding of the name-resolution engine, the streaming value model,
  cell-path addressing, the diagnostic suggester, and several builtin
  commands (drop column, str substring, ansi strip, par-each), together with
  theorems settling the specified properties.
-/

set_option maxHeartbeats 1000000

/-! ## Spans and errors (from crates/nu-protocol/src/shell_error.rs and span.rs) -/

/-- Byte-range span; the Rust struct has fields start and end (end is a Lean
keyword, renamed stop). -/
structure Span where
  start : Nat
  stop : Nat
deriving DecidableEq, Repr

/-- The subset of the ShellError taxonomy (shell_error.rs) used by the
operations embedded here. Constructor payloads follow the Rust variants. -/
inductive ShellError where
  | typeMismatch (msg : String) (span : Span)
  | unsupportedInput (msg : String) (span : Span)
  | cantFindColumn (lookupSpan : Span) (originSpan : Span)
  | notAList (span : Span) (originSpan : Span)
  | incompatiblePathAccess (ty : String) (span : Span)
  | accessBeyondEnd (len : Nat) (span : Span)
  | variableNotFoundAtRuntime (span : Span)
  | envVarNotFoundAtRuntime (span : Span)
  | notFound (span : Span)
  | commandNotFound (span : Span)
  | didYouMean (suggestion : String) (span : Span)
deriving DecidableEq, Repr

/-! ## Structured values (nu-protocol Value, the variants the claims need) -/

/-- Runtime value representation: scalar / record / list / error variants,
each non-composite variant carrying its originating span. -/
inductive Value where
  | nothing (span : Span)
  | bool (val : Bool) (span : Span)
  | int (val : Int) (span : Span)
  | string (val : String) (span : Span)
  | record (cols : List String) (vals : List Value) (span : Span)
  | list (vals : List Value) (span : Span)
  | error (error : ShellError)

/-- Rendering of Value.get_type used in error messages. -/
def Value.typeName : Value → String
  | .nothing _ => "nothing"
  | .bool _ _ => "bool"
  | .int _ _ => "int"
  | .string _ _ => "string"
  | .record _ _ _ => "record"
  | .list _ _ => "list"
  | .error _ => "error"

/-- The span of a value, when it carries one (Value.span in the source). -/
def Value.spanOf : Value → Option Span
  | .nothing s => some s
  | .bool _ s => some s
  | .int _ s => some s
  | .string _ s => some s
  | .record _ _ s => some s
  | .list _ s => some s
  | .error _ => none

def Value.isRecord : Value → Bool
  | .record _ _ _ => true
  | _ => false

/-! ## Diagnostic suggester (shell_error.rs: did_you_mean, levenshtein_distance) -/

/-- Lexicographic comparison of char sequences by code point; this is the
order Rust uses for String (byte-wise comparison of UTF-8 agrees with
code-point order). -/
def charListLe : List Char → List Char → Bool
  | [], _ => true
  | _ :: _, [] => false
  | a :: as, b :: bs =>
    if a.toNat < b.toNat then true
    else if b.toNat < a.toNat then false
    else charListLe as bs

/-- String comparison, modelling Rust Ord for String. -/
def strLe (a b : String) : Bool := charListLe a.data b.data

/-- Rust derived Ord on the pair (usize, String): compare distance first,
then the word. -/
def pairLe (p q : Nat × String) : Bool :=
  Nat.blt p.1 q.1 || (p.1 == q.1 && strLe p.2 q.2)

/-- The nested comparison expression the Rust loop body assigns to result:
given the updated distance_a (the cache entry), the previous result and
distance_b, pick the new cell value. -/
def levMerge (distA2 result distB : Nat) : Nat :=
  if distA2 > result then
    if distB > result then result + 1 else distB
  else if distB > distA2 then
    distA2 + 1
  else distB

/-- Inner loop of levenshtein_distance: one pass over the chars of a for a
fixed char of b, threading the rolling cache, the diagonal value distance_a
and the running result, exactly as the Rust loop body does (the branch
expression is factored into levMerge). Returns the updated cache together
with the final result. -/
def levInner (code_b : Char) :
    List Char → List Nat → Nat → Nat → List Nat × Nat
  | [], _, _, result => ([], result)
  | _ :: _, [], _, result => ([], result)
  | code_a :: as, cacheA :: cacheRest, distA, result =>
    let distB := if code_a == code_b then distA else distA + 1
    let distA2 := cacheA
    let result2 := levMerge distA2 result distB
    let rest := levInner code_b as cacheRest distA2 result2
    (result2 :: rest.1, rest.2)

/-- Outer loop of levenshtein_distance over the chars of b with their index;
at each step result and distance_a are reset to index_b. -/
def levOuter (aChars : List Char) :
    List Char → Nat → List Nat → Nat → Nat
  | [], _, _, result => result
  | code_b :: bs, index_b, cache, _ =>
    let step := levInner code_b aChars cache index_b index_b
    levOuter aChars bs (index_b + 1) step.1 step.2

/-- levenshtein_distance from shell_error.rs: single rolling-vector dynamic
programming with the shortcut cases for equal strings and empty inputs. -/
def levenshtein_distance (a b : String) : Nat :=
  if a == b then 0
  else
    let length_a := a.data.length
    let length_b := b.data.length
    if length_a == 0 then length_b
    else if length_b == 0 then length_a
    else
      let cache := (List.range length_a).map (fun i => i + 1)
      levOuter a.data b.data 0 cache 0

/-- Stable insertion of a pair into a list sorted by pairLe (the element is
placed after all existing elements that compare less-or-equal). -/
def sortInsert (x : Nat × String) : List (Nat × String) → List (Nat × String)
  | [] => [x]
  | y :: ys => if pairLe y x then y :: sortInsert x ys else x :: y :: ys

/-- Stable sort by pairLe, modelling Vec::sort on (usize, String) pairs
(Rust sort is a stable sort by the derived lexicographic Ord). -/
def sortPairs : List (Nat × String) → List (Nat × String)
  | [] => []
  | x :: xs => sortInsert x (sortPairs xs)

/-- did_you_mean from shell_error.rs: rank every candidate by edit distance
to the tried name, sort by (distance, word), return the first. -/
def did_you_mean (possibilities : List String) (tried : String) : Option String :=
  let possible_matches :=
    possibilities.map (fun word => (levenshtein_distance word tried, word))
  (sortPairs possible_matches).head?.map (fun p => p.2)

/-- The textbook Levenshtein distance: the classic unit-cost
insert/delete/substitute dynamic-programming recurrence on prefix lengths,
levRec A B i j being the distance between the first i chars of A and the
first j chars of B (the matrix D with D[0][j] = j, D[i][0] = i and
D[i+1][j+1] = if A[i] = B[j] then D[i][j] else 1 + min of the three
neighbors). Used to state that the rolling-vector implementation computes
the Levenshtein distance. -/
def levRec (A B : List Char) : Nat → Nat → Nat
  | 0, j => j
  | i + 1, 0 => i + 1
  | i + 1, j + 1 =>
    if A.getD i ' ' == B.getD j ' ' then levRec A B i j
    else
      1 + min (min (levRec A B i (j + 1)) (levRec A B (i + 1) j))
        (levRec A B i j)
termination_by i j => (i, j)

/-! ## drop column (crates/nu-command/src/filters/drop/column.rs) -/

/-- get_input_cols: column names of the first row; anything that is not a
record (or an empty table) yields the single empty-name placeholder. -/
def get_input_cols (input : List Value) : List String :=
  match input.head? with
  | some (Value.record cols _ _) => cols
  | _ => [""]

/-- get_keep_columns: clamp the drop count to the length, then slice the
prefix input[0..(vlen - drop)]. The Rust function indexes with
(vlen - drop) as usize, which for a negative drop count exceeds the length
and makes the slice expression panic; the panic is modelled by none. -/
def get_keep_columns (input : List String) (num_of_columns_to_drop : Int) :
    Option (List String) :=
  let vlen : Int := input.length
  let dropClamped :=
    if num_of_columns_to_drop > vlen then vlen else num_of_columns_to_drop
  let num_of_columns_to_keep := (vlen - dropClamped).toNat
  if num_of_columns_to_keep ≤ input.length then
    some (input.take num_of_columns_to_keep)
  else none

/-- Positional lookup of a column in the parallel cols/vals lists of a
record. -/
def recordLookup : List String → List Value → String → Option Value
  | c :: cs, v :: vs, col =>
    if c == col then some v else recordLookup cs vs col
  | _, _, _ => none

/-- Modelled from the spec: the single-string-member case of
Value::follow_cell_path (nu-protocol, not under src/): a string member
against a record looks up the matching column name exactly and fails with
CantFindColumn if absent; against any non-record it fails with
IncompatiblePathAccess naming the offending type. -/
def follow_column (v : Value) (col : String) (head : Span) :
    Except ShellError Value :=
  match v with
  | .record cols vals span =>
    match recordLookup cols vals col with
    | some child => .ok child
    | none => .error (.cantFindColumn head span)
  | other =>
    .error (.incompatiblePathAccess other.typeName head)

/-- Map a fallible function over a list, stopping at the first error (the
behaviour of a Rust for loop whose body uses the ? operator). -/
def exceptMapList (f : α → Except ε β) : List α → Except ε (List β)
  | [] => .ok []
  | a :: as =>
    match f a with
    | .error e => .error e
    | .ok b =>
      match exceptMapList f as with
      | .error e => .error e
      | .ok bs => .ok (b :: bs)

/-- One row of the dropcol loop body: fetch every keep column from the row
(aborting on failure, as the ? operator does) and rebuild a record with
exactly the keep columns as its schema. -/
def projectRow (keep : List String) (span : Span) (row : Value) :
    Except ShellError Value :=
  match exceptMapList (fun c => follow_column row c span) keep with
  | .error e => .error e
  | .ok vals => .ok (Value.record keep vals span)

/-- dropcol on the list-of-rows input (the Value::List and Stream branches
of dropcol, which perform the same computation): derive the keep set from
the first row, then project every row onto it. none models the
get_keep_columns slice panic. -/
def dropcol_rows (rows : List Value) (columns : Int) (span : Span) :
    Option (Except ShellError (List Value)) :=
  match get_keep_columns (get_input_cols rows) columns with
  | none => none
  | some kc => some (exceptMapList (projectRow kc span) rows)

example : get_keep_columns ["a", "b", "c"] 1 = some ["a", "b"] := by decide
example : get_keep_columns ["a", "b", "c"] 5 = some [] := by decide
example : get_keep_columns ["a"] (-1) = none := by decide
example : did_you_mean ["name"] "nam" = some "name" := by decide
example : levenshtein_distance "sitting" "kitten" = 3 := by decide

/-! ## Cell paths and update_cell_path -/

/-- A cell-path member: record-field lookup by string, or list index. -/
inductive PathMember where
  | str (s : String)
  | int (i : Nat)

/-- Modelled from the spec: Value::update_cell_path (nu-protocol, not under
src/): walk the members left to right, at the terminal member replace the
child via replace_fn (whose failures are already represented as Error
values, as the call sites pass closures returning Value); only the path
from root to the mutated leaf is rebuilt. Traversal failures (missing
column, wrong container type, index out of range) abort with the
corresponding ShellError. -/
def update_cell_path (members : List PathMember) (replace_fn : Value → Value)
    (head : Span) : Value → Except ShellError Value :=
  match members with
  | [] => fun v => .ok (replace_fn v)
  | .str col :: rest => fun v =>
    match v with
    | .record cols vals span =>
      match cols.findIdx? (fun c => c == col) with
      | some i =>
        match vals.get? i with
        | some child =>
          match update_cell_path rest replace_fn head child with
          | .ok newChild => .ok (.record cols (vals.set i newChild) span)
          | .error e => .error e
        | none => .error (.cantFindColumn head span)
      | none => .error (.cantFindColumn head span)
    | other => .error (.incompatiblePathAccess other.typeName head)
  | .int i :: rest => fun v =>
    match v with
    | .list vals span =>
      match vals.get? i with
      | some child =>
        match update_cell_path rest replace_fn head child with
        | .ok newChild => .ok (.list (vals.set i newChild) span)
        | .error e => .error e
      | none => .error (.accessBeyondEnd vals.length span)
    | other => .error (.notAList head (other.spanOf.getD head))

/-! ## str substring (crates/nu-command/src/strings/str_/substring.rs) -/

namespace StrSubstring

/-- The (start, end) index pair; the source names this struct Substring. -/
structure Indexes where
  fst : Int
  snd : Int

/-- isize::max_value(), the sentinel for an open-ended range. -/
def isizeMax : Int := 2 ^ 63 - 1

/-- Rust `as usize` on an isize: two-complement wrap into 0..2^64. -/
def castUsize (i : Int) : Nat := (i % (2 : Int) ^ 64).toNat

/-- Rust String::len — the UTF-8 byte length. -/
def utf8Len (s : String) : Nat := (s.data.map (fun c => c.utf8Size)).sum

/-- action from substring.rs: adjust negative indexes from the end (using
the byte length), return empty for out-of-band ranges, error when start
exceeds end, and slice by chars via skip/take otherwise. -/
def action (input : Value) (options : Indexes) (head : Span) : Value :=
  match input with
  | .string s _ =>
    let len : Int := utf8Len s
    let start : Int := if options.fst < 0 then options.fst + len else options.fst
    let stop : Int := if options.snd < 0 then max (len + options.snd) 0 else options.snd
    if start < len ∧ 0 ≤ stop then
      if start = stop then Value.string "" head
      else if start > stop then
        Value.error (.unsupportedInput
          "End must be greater than or equal to Start" head)
      else
        if stop = isizeMax then
          Value.string (String.mk (s.data.drop (castUsize start))) head
        else
          Value.string
            (String.mk ((s.data.drop (castUsize start)).take
              (castUsize (stop - start)))) head
    else Value.string "" head
  | other =>
    Value.error (.unsupportedInput
      ("Input\x27s type is " ++ other.typeName ++
        ". This command only works with strings.") head)

/-- The for-loop over column paths in the operate closure: update each path
in turn, stopping with an Error value as soon as one update fails. -/
def applyPaths (options : Indexes) (head : Span) :
    List (List PathMember) → Value → Value
  | [], ret => ret
  | path :: ps, ret =>
    match update_cell_path path (fun old => action old options head) head ret with
    | .error e => Value.error e
    | .ok r => applyPaths options head ps r

/-- The per-element closure passed to PipelineData::map by operate. -/
def perElem (options : Indexes) (head : Span)
    (column_paths : List (List PathMember)) (v : Value) : Value :=
  if column_paths.isEmpty then action v options head
  else applyPaths options head column_paths v

/-- operate from substring.rs after argument resolution: map the closure
over every element of the input. The map itself cannot fail. -/
def operate (options : Indexes) (head : Span)
    (column_paths : List (List PathMember)) (input : List Value) :
    Except ShellError (List Value) :=
  .ok (input.map (perElem options head column_paths))

end StrSubstring

/-! ## ansi strip (crates/nu-command/src/platform/ansi/strip.rs) -/

namespace AnsiStrip

/-- action from strip.rs. The strip function comes from the external
strip-ansi-escapes crate, passed here as the collaborator parameter
stripFn (none models its Err case, in which the value is kept as-is). -/
def action (stripFn : String → Option String) (input : Value)
    (command_span : Span) : Value :=
  match input with
  | .string val span =>
    let stripped_string :=
      match stripFn val with
      | some bytes => bytes
      | none => val
    Value.string stripped_string span
  | other =>
    Value.error (.typeMismatch
      ("value is " ++ other.typeName ++ ", not string")
      (other.spanOf.getD command_span))

/-- The for-loop over column paths in the operate closure of strip.rs. -/
def applyPaths (stripFn : String → Option String) (head : Span) :
    List (List PathMember) → Value → Value
  | [], ret => ret
  | path :: ps, ret =>
    match update_cell_path path (fun old => action stripFn old head) head ret with
    | .error e => Value.error e
    | .ok r => applyPaths stripFn head ps r

/-- The per-element closure passed to PipelineData::map by operate. -/
def perElem (stripFn : String → Option String) (head : Span)
    (column_paths : List (List PathMember)) (v : Value) : Value :=
  if column_paths.isEmpty then action stripFn v head
  else applyPaths stripFn head column_paths v

/-- operate from strip.rs after argument resolution. -/
def operate (stripFn : String → Option String) (head : Span)
    (column_paths : List (List PathMember)) (input : List Value) :
    Except ShellError (List Value) :=
  .ok (input.map (perElem stripFn head column_paths))

end AnsiStrip

/-! ## PipelineData map with cooperative cancellation -/

/-- Modelled from the spec: PipelineData::map with a ctrlc token
(nu-protocol, not under src/): f is applied per element in producer order;
the cancel token is consulted between elements (ctrlc k asks whether the
flag is observed after k elements have been produced), and once it is
observed the iteration stops, silently truncating the output. -/
def pipelineMap (ctrlc : Nat → Bool) (f : Value → Value) :
    List Value → Nat → List Value
  | [], _ => []
  | v :: vs, produced =>
    if ctrlc produced then []
    else f v :: pipelineMap ctrlc f vs (produced + 1)

/-- The command wrapper around pipelineMap: cancellation is not an error,
whatever has been produced is returned as a success. -/
def pipelineMapRun (ctrlc : Nat → Bool) (f : Value → Value)
    (input : List Value) : Except ShellError (List Value) :=
  .ok (pipelineMap ctrlc f input 0)

/-! ## par-each (parallel element-wise evaluation) -/

/-- Contiguous chunking of a list; the chunk size is sizePred + 1 so every
chunk is nonempty and the recursion terminates. -/
def chunkList (sizePred : Nat) : List α → List (List α)
  | [] => []
  | x :: xs =>
    ((x :: xs).take (sizePred + 1)) :: chunkList sizePred ((x :: xs).drop (sizePred + 1))
termination_by l => l.length
decreasing_by
  simp only [List.length_drop, List.length_cons]
  omega

/-- Modelled from the spec: par-each (nu-command, not under src/):
partition the input deterministically by index into per-worker chunks, run
the per-element block on each chunk with its own copy of the captured
scope (the block f is captured by value, so every worker applies the same
pure function), and reassemble the results by original index into one
ordered output. -/
def par_each (workers : Nat) (f : α → β) (input : List α) : List β :=
  let size := max ((input.length + workers - 1) / max workers 1) 1
  let chunks := chunkList (size - 1) input
  let results := chunks.map (fun c => c.map f)
  results.flatten

/-! ## The scope / name-resolution engine

Modelled from the spec (the engine itself is not under src/, only its test
suite src/src/tests.rs): per-block variable frames, a chronological
declaration table with hide markers, and a chronological environment table
with hide markers. -/

/-- Statements of the block language exercised by the scope tests. -/
inductive Stmt where
  | defCmd (name : String) (body : String)
  | hideName (name : String)
  | letEnv (name : String) (val : String)
  | letVar (name : String) (val : Int)
  | ifStmt (cond : Bool) (thenBlk : List Stmt) (elseBlk : List Stmt)

/-- The final expression of a program. -/
inductive Expr where
  | callCmd (name : String)
  | envRead (name : String)
  | varRead (name : String)

structure Program where
  stmts : List Stmt
  result : Expr

/-- Parse-level failures, raised at block finalize time before evaluation. -/
inductive ParseError where
  | duplicateDeclaration (name : String)
  | couldNotFindImport (name : String)
deriving DecidableEq, Repr

/-- Runtime-or-parse failure of a whole program run. -/
inductive RunError where
  | parse (e : ParseError)
  | variableNotFound
  | commandNotFound
  | envVarNotFound
  | didNotFindHide
deriving DecidableEq, Repr

/-- Modelled from the spec: a chronological entry of the declaration table,
either a declaration or a hide marker. -/
inductive DeclEvent where
  | decl (name : String) (body : String)
  | hide (name : String)
deriving DecidableEq, Repr

/-- Modelled from the spec: a chronological entry of the environment table. -/
inductive EnvEvent where
  | set (name : String) (val : String)
  | hide (name : String)
deriving DecidableEq, Repr

/-- Modelled from the spec: resolve_command — scan entries newest first; a
matching declaration wins, a matching hide marker makes resolution fail
even though an older (outer) declaration exists; a redeclaration recorded
after a hide is therefore found first and the hidden one never resurfaces. -/
def resolveDecl : List DeclEvent → String → Option String
  | [], _ => none
  | .decl n b :: rest, name =>
    if n == name then some b else resolveDecl rest name
  | .hide n :: rest, name =>
    if n == name then none else resolveDecl rest name

/-- Modelled from the spec: resolve_env — the same newest-first scan over
the independent environment table. -/
def resolveEnv : List EnvEvent → String → Option String
  | [], _ => none
  | .set n v :: rest, name =>
    if n == name then some v else resolveEnv rest name
  | .hide n :: rest, name =>
    if n == name then none else resolveEnv rest name

/-- One variable frame: bindings created by let, newest first. -/
def lookupFrame : List (String × Int) → String → Option Int
  | [], _ => none
  | (n, v) :: rest, name =>
    if n == name then some v else lookupFrame rest name

/-- resolve_variable: walk frames innermost first. -/
def lookupVar : List (List (String × Int)) → String → Option Int
  | [], _ => none
  | f :: fs, name =>
    match lookupFrame f name with
    | some v => some v
    | none => lookupVar fs name

/-- Add a binding to the innermost frame. -/
def bindVar (n : String) (v : Int) :
    List (List (String × Int)) → List (List (String × Int))
  | [] => [[(n, v)]]
  | f :: fs => ((n, v) :: f) :: fs

/-- The mutable evaluation context: declaration table, environment table,
and the chain of variable frames (innermost first). -/
structure EvalState where
  decls : List DeclEvent
  envs : List EnvEvent
  varFrames : List (List (String × Int))

mutual

/-- Evaluate one statement. A block entry (conditional branch) pushes a
fresh variable frame and pops it on exit, discarding the bindings made
inside; hide records a marker on whichever table has the name visible and
fails (did not find) when neither does. -/
def evalStmt : Stmt → EvalState → Except RunError EvalState
  | .defCmd n b, st => .ok { st with decls := .decl n b :: st.decls }
  | .hideName n, st =>
    if (resolveDecl st.decls n).isSome then
      .ok { st with decls := .hide n :: st.decls }
    else if (resolveEnv st.envs n).isSome then
      .ok { st with envs := .hide n :: st.envs }
    else .error .didNotFindHide
  | .letEnv n v, st => .ok { st with envs := .set n v :: st.envs }
  | .letVar n v, st => .ok { st with varFrames := bindVar n v st.varFrames }
  | .ifStmt cond thenBlk elseBlk, st =>
    if cond then
      match evalStmts thenBlk { st with varFrames := [] :: st.varFrames } with
      | .error e => .error e
      | .ok st2 => .ok { st2 with varFrames := st2.varFrames.tail }
    else
      match evalStmts elseBlk { st with varFrames := [] :: st.varFrames } with
      | .error e => .error e
      | .ok st2 => .ok { st2 with varFrames := st2.varFrames.tail }

/-- Evaluate a statement list left to right, stopping at the first error. -/
def evalStmts : List Stmt → EvalState → Except RunError EvalState
  | [], st => .ok st
  | s :: ss, st =>
    match evalStmt s st with
    | .error e => .error e
    | .ok st2 => evalStmts ss st2

end

/-- Evaluate the final expression of a program against the final state. -/
def evalExpr : Expr → EvalState → Except RunError String
  | .callCmd n, st =>
    match resolveDecl st.decls n with
    | some b => .ok b
    | none => .error .commandNotFound
  | .envRead n, st =>
    match resolveEnv st.envs n with
    | some v => .ok v
    | none => .error .envVarNotFound
  | .varRead n, st =>
    match lookupVar st.varFrames n with
    | some v => .ok (toString v)
    | none => .error .variableNotFound

/-- The command names declared directly in one block (not in nested
blocks). -/
def defNames (stmts : List Stmt) : List String :=
  stmts.filterMap (fun s =>
    match s with
    | .defCmd n _ => some n
    | _ => none)

/-- Duplicate check over the declaration names of one block: names must be
unique within one frame. -/
def checkDup : List String → Except ParseError Unit
  | [] => .ok ()
  | n :: rest =>
    if n ∈ rest then .error (.duplicateDeclaration n) else checkDup rest

mutual

/-- Finalize-time validation of one statement: recurse into nested blocks,
checking each block for duplicate declarations. -/
def finalizeStmt : Stmt → Except ParseError Unit
  | .ifStmt _ b1 b2 =>
    match checkDup (defNames b1) with
    | .error e => .error e
    | .ok _ =>
      match finalizeList b1 with
      | .error e => .error e
      | .ok _ =>
        match checkDup (defNames b2) with
        | .error e => .error e
        | .ok _ => finalizeList b2
  | _ => .ok ()

def finalizeList : List Stmt → Except ParseError Unit
  | [] => .ok ()
  | s :: rest =>
    match finalizeStmt s with
    | .error e => .error e
    | .ok _ => finalizeList rest

end

/-- Modelled from the spec: block finalize — the compile-time pass that
rejects duplicate same-name declarations within one block, run before any
evaluation starts. -/
def finalizeBlock (stmts : List Stmt) : Except ParseError Unit :=
  match checkDup (defNames stmts) with
  | .error e => .error e
  | .ok _ => finalizeList stmts

def initState : EvalState := ⟨[], [], [[]]⟩

/-- Run a program: finalize the top block first (parse-level validation
aborts the whole block before evaluation), then evaluate the statements
and the final expression. -/
def runProgram (p : Program) : Except RunError String :=
  match finalizeBlock p.stmts with
  | .error e => .error (.parse e)
  | .ok _ =>
    match evalStmts p.stmts initState with
    | .error e => .error e
    | .ok st => evalExpr p.result st

/-! ## Module imports -/

/-- A module as the importer sees it: exported commands, exported
environment bindings, and internal (non-exported) commands that are not
eligible for import. -/
structure NuModule where
  exportedDecls : List (String × String)
  exportedEnvs : List (String × String)
  internalDecls : List (String × String)

/-- The bindings produced by an import. -/
structure ImportBindings where
  decls : List (String × String)
  envs : List (String × String)
deriving DecidableEq, Repr

/-- Modelled from the spec: single-name import resolution (the parser pass
is not under src/): only exported names are eligible; a name exported both
as a command and as an environment binding imports both together; a name
that is not exported (or does not exist) fails with a could-not-find-import
diagnostic naming the missing symbol. -/
def resolveImportName (m : NuModule) (name : String) :
    Except ParseError ImportBindings :=
  let d := m.exportedDecls.lookup name
  let e := m.exportedEnvs.lookup name
  match d, e with
  | none, none => .error (.couldNotFindImport name)
  | _, _ =>
    .ok ⟨(match d with | some b => [(name, b)] | none => []),
         (match e with | some v => [(name, v)] | none => [])⟩

/-- Glob / single name / explicit list import patterns. -/
inductive ImportMember where
  | glob
  | one (n : String)
  | names (ns : List String)

/-- Modelled from the spec: import over a pattern member. -/
def resolveImport (m : NuModule) (mem : ImportMember) :
    Except ParseError ImportBindings :=
  match mem with
  | .glob => .ok ⟨m.exportedDecls, m.exportedEnvs⟩
  | .one n => resolveImportName m n
  | .names ns =>
    ns.foldlM
      (fun acc n =>
        (resolveImportName m n).map
          (fun b => ⟨acc.decls ++ b.decls, acc.envs ++ b.envs⟩))
      (⟨[], []⟩ : ImportBindings)

/-! ## Supporting lemmas -/

theorem chunkList_flatten (k : Nat) : ∀ (xs : List α), (chunkList k xs).flatten = xs := by
  have main : ∀ (n : Nat) (xs : List α), xs.length ≤ n → (chunkList k xs).flatten = xs := by
    intro n
    induction n with
    | zero =>
      intro xs h
      cases xs with
      | nil => simp [chunkList]
      | cons x xs => simp at h
    | succ n ih =>
      intro xs h
      cases xs with
      | nil => simp [chunkList]
      | cons x xs =>
        rw [chunkList]
        rw [List.flatten_cons]
        rw [ih ((x :: xs).drop (k + 1))
          (by simp only [List.length_drop, List.length_cons] at h ⊢; omega)]
        exact List.take_append_drop _ _
  intro xs
  exact main xs.length xs le_rfl

theorem get_keep_columns_nonneg (input : List String) (n : Int) (h : 0 ≤ n) :
    get_keep_columns input n = some (input.take (input.length - n.toNat)) := by
  simp only [get_keep_columns]
  split_ifs with h1 h2 h3
  · have e : ((input.length : Int) - input.length).toNat = input.length - n.toNat := by
      omega
    rw [e]
  · exfalso; omega
  · have e : ((input.length : Int) - n).toNat = input.length - n.toNat := by omega
    rw [e]
  · exfalso; omega

theorem get_keep_columns_all (input : List String) (n : Int)
    (h : (input.length : Int) ≤ n) : get_keep_columns input n = some [] := by
  rw [get_keep_columns_nonneg input n (le_trans (Int.ofNat_nonneg _) h)]
  have : input.length - n.toNat = 0 := by omega
  rw [this, List.take_zero]

theorem exceptMapList_ok_of (f : α → Except ε β) (g : α → β)
    (hfg : ∀ a, f a = .ok (g a)) : ∀ l, exceptMapList f l = .ok (l.map g) := by
  intro l
  induction l with
  | nil => rfl
  | cons a as ih => simp [exceptMapList, hfg a, ih]

theorem dropcol_rows_all (rows : List Value) (n : Int) (span : Span)
    (h : ((get_input_cols rows).length : Int) ≤ n) :
    dropcol_rows rows n span =
      some (.ok (rows.map (fun _ => Value.record [] [] span))) := by
  unfold dropcol_rows
  rw [get_keep_columns_all _ _ h]
  show some (exceptMapList (projectRow [] span) rows) = _
  rw [exceptMapList_ok_of (projectRow [] span)
    (fun _ => Value.record [] [] span) (fun _ => rfl) rows]

/-! ## Claim theorems: drop column -/

/-- Claim C4: for every table and drop count N ≥ 0 the keep-set of drop
column is the prefix of the first-row column names of length
max(L - N, 0); a first row that is not a record (or an empty table) yields
the single empty-name placeholder column; and once N is at least the
remaining column count, re-applying the projection with the same N is a
no-op whose rows are all the empty-schema record. -/
theorem c4_drop_column_projection :
    (∀ (cols : List String) (n : Int), 0 ≤ n →
        get_keep_columns cols n = some (cols.take (cols.length - n.toNat)))
    ∧ (∀ rows : List Value,
        (∀ v, rows.head? = some v → v.isRecord = false) →
        get_input_cols rows = [""])
    ∧ (∀ (rows : List Value) (n : Int) (span : Span),
        ((get_input_cols rows).length : Int) ≤ n →
        ∃ out, dropcol_rows rows n span = some (.ok out)
          ∧ out.length = rows.length
          ∧ (∀ r ∈ out, r = Value.record [] [] span)
          ∧ dropcol_rows out n span = some (.ok out)) := by
  refine ⟨get_keep_columns_nonneg, ?_, ?_⟩
  · intro rows hrec
    cases hrows : rows.head? with
    | none => simp [get_input_cols, hrows]
    | some v =>
      have := hrec v hrows
      cases v <;>
        first
        | (simp [get_input_cols, hrows]; done)
        | simp [Value.isRecord] at this
  · intro rows n span h
    refine ⟨rows.map (fun _ => Value.record [] [] span),
      dropcol_rows_all rows n span h, by simp, ?_, ?_⟩
    · intro r hr
      rw [List.mem_map] at hr
      obtain ⟨a, _, rfl⟩ := hr
      rfl
    · have h0 : (0 : Int) ≤ n := le_trans (Int.ofNat_nonneg _) h
      have h2 : ((get_input_cols
          (rows.map (fun _ => Value.record [] [] span))).length : Int) ≤ n := by
        cases rows with
        | nil => simpa using h
        | cons r rs => simpa [get_input_cols] using h0
      rw [dropcol_rows_all _ n span h2, List.map_map]
      rfl

/-- Claim C4 witness: the projection evaluated on concrete inputs. -/
theorem c4_witness :
    get_keep_columns ["a", "b"] 1 =
      some (["a", "b"].take (["a", "b"].length - (1 : Int).toNat))
    ∧ get_input_cols [Value.int 3 ⟨0, 0⟩] = [""]
    ∧ ∃ out,
        dropcol_rows [Value.record ["a"] [Value.int 7 ⟨0, 0⟩] ⟨0, 0⟩] 2 ⟨0, 0⟩ =
          some (.ok out)
        ∧ out.length = [Value.record ["a"] [Value.int 7 ⟨0, 0⟩] ⟨0, 0⟩].length
        ∧ (∀ r ∈ out, r = Value.record [] [] ⟨0, 0⟩)
        ∧ dropcol_rows out 2 ⟨0, 0⟩ = some (.ok out) :=
  ⟨c4_drop_column_projection.1 ["a", "b"] 1 (by decide),
   c4_drop_column_projection.2.1 [Value.int 3 ⟨0, 0⟩]
     (by intro v hv; cases hv; rfl),
   c4_drop_column_projection.2.2 [Value.record ["a"] [Value.int 7 ⟨0, 0⟩] ⟨0, 0⟩]
     2 ⟨0, 0⟩ (by simp [get_input_cols])⟩

/-- Claim C5 counterexample: at a negative drop count the slice upper bound
(vlen - count) exceeds the list length, so the Rust slice panics (modelled
by none): get_keep_columns is not total over negative counts. -/
theorem c5_counterexample : get_keep_columns ["a"] (-1) = none := by decide

/-- Claim C5 (amended): get_keep_columns is total and returns a prefix for
every non-negative drop count — the slice upper bound stays within the
list only when the count is non-negative; for negative counts the bound
exceeds the length and the slice panics. -/
theorem c5_total_nonneg (input : List String) (n : Int) (h : 0 ≤ n) :
    ∃ k, k ≤ input.length ∧ get_keep_columns input n = some (input.take k) :=
  ⟨input.length - n.toNat, Nat.sub_le _ _, get_keep_columns_nonneg input n h⟩

/-- Claim C5 witness: totality evaluated at a concrete non-negative count. -/
theorem c5_witness :
    ∃ k, k ≤ ["a", "b", "c"].length
      ∧ get_keep_columns ["a", "b", "c"] 2 = some (["a", "b", "c"].take k) :=
  c5_total_nonneg ["a", "b", "c"] 2 (by decide)

/-! ## Claim theorems: streaming -/

theorem pipelineMap_uncancelled (f : Value → Value) :
    ∀ (input : List Value) (c : Nat),
      pipelineMap (fun _ => false) f input c = input.map f := by
  intro input
  induction input with
  | nil => intro c; rfl
  | cons v vs ih => intro c; simp [pipelineMap, ih]

theorem pipelineMap_cancel_at (n : Nat) (f : Value → Value) :
    ∀ (input : List Value) (c : Nat),
      pipelineMap (fun k => decide (n ≤ k)) f input c
        = (input.map f).take (n - c) := by
  intro input
  induction input with
  | nil => intro c; simp [pipelineMap]
  | cons v vs ih =>
    intro c
    by_cases hc : n ≤ c
    · have h0 : n - c = 0 := by omega
      simp [pipelineMap, hc, h0]
    · have h1 : n - c = (n - (c + 1)) + 1 := by omega
      simp only [pipelineMap, decide_eq_true_eq, if_neg hc, List.map_cons, h1,
        List.take_succ_cons]
      rw [ih (c + 1)]

/-- Claim C9: map over a stream whose cancellation flag is observed once n
elements have been produced returns, as a success and with no error,
exactly the n-element prefix (first elements, in order) of the output the
uncancelled run would produce. -/
theorem c9_map_cancellation_prefix (n : Nat) (f : Value → Value)
    (input : List Value) :
    pipelineMapRun (fun k => decide (n ≤ k)) f input
      = .ok ((pipelineMap (fun _ => false) f input 0).take n) := by
  simp only [pipelineMapRun, pipelineMap_uncancelled, pipelineMap_cancel_at,
    Nat.sub_zero]

/-- Claim C10: parallel element-wise evaluation equals the sequential map
for every worker count: the element at each original index i is the one a
sequential map would produce there. -/
theorem c10_par_each_eq_map {α β : Type} (workers : Nat) (f : α → β)
    (input : List α) : par_each workers f input = input.map f := by
  unfold par_each
  rw [← List.map_flatten]
  rw [chunkList_flatten]

/-! ## Claim theorems: per-element cell-path mutation -/

/-- Claim C6: a per-element cell-path mutation mapped across a collection
(operate of str substring and ansi strip) never aborts the collection: the
result is exactly the independent per-element image, an element whose
update fails becomes an Error value at its own position, and an element
whose update succeeds keeps its successful result. -/
theorem c6_per_element_mutation :
    (∀ (opts : StrSubstring.Indexes) (head : Span)
        (paths : List (List PathMember)) (input : List Value),
        StrSubstring.operate opts head paths input =
          .ok (input.map (StrSubstring.perElem opts head paths)))
    ∧ (∀ (opts : StrSubstring.Indexes) (head : Span) (p : List PathMember)
        (v : Value) (e : ShellError),
        update_cell_path p (fun old => StrSubstring.action old opts head) head v
          = .error e →
        StrSubstring.perElem opts head [p] v = Value.error e)
    ∧ (∀ (opts : StrSubstring.Indexes) (head : Span) (p : List PathMember)
        (v r : Value),
        update_cell_path p (fun old => StrSubstring.action old opts head) head v
          = .ok r →
        StrSubstring.perElem opts head [p] v = r)
    ∧ (∀ (stripFn : String → Option String) (head : Span)
        (paths : List (List PathMember)) (input : List Value),
        AnsiStrip.operate stripFn head paths input =
          .ok (input.map (AnsiStrip.perElem stripFn head paths))) := by
  refine ⟨fun _ _ _ _ => rfl, ?_, ?_, fun _ _ _ _ => rfl⟩
  · intro opts head p v e hupdate
    simp [StrSubstring.perElem, StrSubstring.applyPaths, hupdate]
  · intro opts head p v r hupdate
    simp [StrSubstring.perElem, StrSubstring.applyPaths, hupdate]

/-- Claim C6 witness: a failing update yields an Error element in place and
a succeeding one keeps its result, at concrete inputs. -/
theorem c6_witness :
    StrSubstring.perElem ⟨0, 1⟩ ⟨0, 0⟩ [[PathMember.str "a"]] (Value.int 3 ⟨0, 0⟩)
      = Value.error (.incompatiblePathAccess "int" ⟨0, 0⟩)
    ∧ StrSubstring.perElem ⟨0, 1⟩ ⟨0, 0⟩ [[PathMember.str "a"]]
        (Value.record ["a"] [Value.string "hi" ⟨0, 0⟩] ⟨0, 0⟩)
      = Value.record ["a"] [Value.string "h" ⟨0, 0⟩] ⟨0, 0⟩ :=
  ⟨c6_per_element_mutation.2.1 ⟨0, 1⟩ ⟨0, 0⟩ [PathMember.str "a"]
      (Value.int 3 ⟨0, 0⟩) (ShellError.incompatiblePathAccess "int" ⟨0, 0⟩) rfl,
   c6_per_element_mutation.2.2.1 ⟨0, 1⟩ ⟨0, 0⟩ [PathMember.str "a"]
      (Value.record ["a"] [Value.string "hi" ⟨0, 0⟩] ⟨0, 0⟩)
      (Value.record ["a"] [Value.string "h" ⟨0, 0⟩] ⟨0, 0⟩) rfl⟩

/-! ## Order lemmas for the suggester -/

theorem charListLe_refl : ∀ l : List Char, charListLe l l = true := by
  intro l
  induction l with
  | nil => rfl
  | cons a as ih => simp [charListLe, ih]

theorem charListLe_total :
    ∀ a b : List Char, charListLe a b = true ∨ charListLe b a = true := by
  intro a
  induction a with
  | nil => intro b; left; rfl
  | cons x xs ih =>
    intro b
    cases b with
    | nil => right; rfl
    | cons y ys =>
      rcases Nat.lt_trichotomy x.toNat y.toNat with h | h | h
      · left; simp [charListLe, h]
      · rcases ih ys with h2 | h2
        · left; simp [charListLe, h, h2]
        · right; simp [charListLe, h, h2]
      · right; simp [charListLe, h]

theorem charListLe_head {x y : Char} {xs ys : List Char}
    (h : charListLe (x :: xs) (y :: ys) = true) : x.toNat ≤ y.toNat := by
  by_contra hc
  simp [charListLe, show ¬ x.toNat < y.toNat by omega,
    show y.toNat < x.toNat by omega] at h

theorem charListLe_trans :
    ∀ a b c : List Char, charListLe a b = true → charListLe b c = true →
      charListLe a c = true := by
  intro a
  induction a with
  | nil => intro b c _ _; rfl
  | cons x xs ih =>
    intro b c hab hbc
    cases b with
    | nil => simp [charListLe] at hab
    | cons y ys =>
      cases c with
      | nil => simp [charListLe] at hbc
      | cons z zs =>
        have hxy := charListLe_head hab
        have hyz := charListLe_head hbc
        rcases Nat.lt_trichotomy x.toNat z.toNat with h | h | h
        · simp [charListLe, h]
        · have hxyeq : x.toNat = y.toNat := by omega
          have hyzeq : y.toNat = z.toNat := by omega
          have hab2 : charListLe xs ys = true := by
            simpa [charListLe, hxyeq] using hab
          have hbc2 : charListLe ys zs = true := by
            simpa [charListLe, hyzeq] using hbc
          simpa [charListLe, h] using ih ys zs hab2 hbc2
        · omega

theorem pairLe_iff (p q : Nat × String) :
    pairLe p q = true ↔ p.1 < q.1 ∨ (p.1 = q.1 ∧ strLe p.2 q.2 = true) := by
  simp [pairLe, Nat.blt_eq]

theorem pairLe_refl (p : Nat × String) : pairLe p p = true := by
  simp [pairLe_iff, strLe, charListLe_refl]

theorem pairLe_total (p q : Nat × String) :
    pairLe p q = true ∨ pairLe q p = true := by
  rcases Nat.lt_trichotomy p.1 q.1 with h | h | h
  · left; simp [pairLe_iff, h]
  · rcases charListLe_total p.2.data q.2.data with h2 | h2
    · left; simp [pairLe_iff, h, strLe, h2]
    · right; simp [pairLe_iff, h, strLe, h2]
  · right; simp [pairLe_iff, h]

theorem pairLe_trans (p q r : Nat × String) (h1 : pairLe p q = true)
    (h2 : pairLe q r = true) : pairLe p r = true := by
  rw [pairLe_iff] at h1 h2 ⊢
  rcases h1 with h1 | ⟨h1, h1s⟩ <;> rcases h2 with h2 | ⟨h2, h2s⟩
  · left; omega
  · left; omega
  · left; omega
  · right; exact ⟨by omega, charListLe_trans _ _ _ h1s h2s⟩

theorem sortPairs_head_min :
    ∀ l : List (Nat × String), l ≠ [] →
      ∃ h rest, sortPairs l = h :: rest ∧ h ∈ l ∧ ∀ q ∈ l, pairLe h q = true := by
  intro l
  induction l with
  | nil => intro hne; exact absurd rfl hne
  | cons x xs ih =>
    intro _
    cases xs with
    | nil =>
      refine ⟨x, [], rfl, List.mem_singleton_self x, ?_⟩
      intro q hq
      have hqx := List.mem_singleton.mp hq
      subst hqx
      exact pairLe_refl q
    | cons y ys =>
      obtain ⟨h, rest, heq, hmem, hmin⟩ := ih (by simp)
      by_cases hc : pairLe h x = true
      · refine ⟨h, sortInsert x rest, ?_, List.mem_cons_of_mem x hmem, ?_⟩
        · show sortInsert x (sortPairs (y :: ys)) = h :: sortInsert x rest
          rw [heq]
          simp [sortInsert, hc]
        · intro q hq
          rcases List.mem_cons.mp hq with rfl | hq2
          · exact hc
          · exact hmin q hq2
      · refine ⟨x, h :: rest, ?_, List.mem_cons_self x _, ?_⟩
        · show sortInsert x (sortPairs (y :: ys)) = x :: h :: rest
          rw [heq]
          simp [sortInsert, hc]
        · intro q hq
          rcases List.mem_cons.mp hq with rfl | hq2
          · exact pairLe_refl q
          · have hxh : pairLe x h = true := by
              rcases pairLe_total x h with h2 | h2
              · exact h2
              · exact absurd h2 hc
            exact pairLe_trans x h q hxh (hmin q hq2)

/-! ## The rolling-vector algorithm computes the textbook recurrence -/

theorem levRec_zero_left (A B : List Char) (j : Nat) : levRec A B 0 j = j := by
  simp [levRec]

theorem levRec_zero_right (A B : List Char) (i : Nat) : levRec A B i 0 = i := by
  cases i <;> simp [levRec]

theorem levRec_self (A : List Char) : ∀ i : Nat, levRec A A i i = 0 := by
  intro i
  induction i with
  | zero => simp [levRec]
  | succ n ih => simp [levRec, ih]

theorem levRec_nb (A B : List Char) :
    ∀ (n i j : Nat), i + j ≤ n →
      (levRec A B (i + 1) j ≤ levRec A B i j + 1)
      ∧ (levRec A B i j ≤ levRec A B (i + 1) j + 1)
      ∧ (levRec A B i (j + 1) ≤ levRec A B i j + 1)
      ∧ (levRec A B i j ≤ levRec A B i (j + 1) + 1) := by
  intro n
  induction n with
  | zero =>
    intro i j h
    have hi : i = 0 := by omega
    have hj : j = 0 := by omega
    subst hi
    subst hj
    refine ⟨?_, ?_, ?_, ?_⟩ <;> (simp only [levRec_zero_left, levRec_zero_right]; omega)
  | succ n ih =>
    intro i j h
    by_cases hn : i + j ≤ n
    · exact ih i j hn
    · refine ⟨?_, ?_, ?_, ?_⟩
      · cases j with
        | zero => simp only [levRec_zero_right]; omega
        | succ j' =>
          have h4 := (ih i j' (by omega)).2.2.2
          simp only [levRec]
          split_ifs with hc
          · omega
          · simp only [Nat.min_def]
            split_ifs <;> omega
      · cases j with
        | zero => simp only [levRec_zero_right]; omega
        | succ j' =>
          have h3 := (ih i j' (by omega)).2.2.1
          have h2 := (ih i j' (by omega)).2.1
          simp only [levRec]
          split_ifs with hc
          · omega
          · simp only [Nat.min_def]
            split_ifs <;> omega
      · cases i with
        | zero => simp only [levRec_zero_left]; omega
        | succ i' =>
          have h2 := (ih i' j (by omega)).2.1
          simp only [levRec]
          split_ifs with hc
          · omega
          · simp only [Nat.min_def]
            split_ifs <;> omega
      · cases i with
        | zero => simp only [levRec_zero_left]; omega
        | succ i' =>
          have h1 := (ih i' j (by omega)).1
          have h4 := (ih i' j (by omega)).2.2.2
          simp only [levRec]
          split_ifs with hc
          · omega
          · simp only [Nat.min_def]
            split_ifs <;> omega

theorem levRec_step (A B : List Char) (i j : Nat) :
    levRec A B (i + 1) (j + 1)
      = min (min (levRec A B (i + 1) j + 1) (levRec A B i (j + 1) + 1))
          (levRec A B i j + (if A.getD i ' ' == B.getD j ' ' then 0 else 1)) := by
  obtain ⟨n1, n2, n3, n4⟩ := levRec_nb A B (i + j) i j le_rfl
  simp only [levRec]
  split_ifs with hc
  · simp only [Nat.min_def]
    split_ifs <;> omega
  · simp only [Nat.min_def]
    split_ifs <;> omega

theorem levMerge_eq_min (distA2 result distB : Nat) :
    levMerge distA2 result distB = min (min (distA2 + 1) (result + 1)) distB := by
  simp only [levMerge, Nat.min_def]
  split_ifs <;> omega

theorem getD_of_drop_cons {l : List Char} {n : Nat} {a : Char} {as : List Char}
    (h : l.drop n = a :: as) : l.getD n ' ' = a := by
  rw [List.getD_eq_getElem?_getD, ← List.head?_drop, h]
  rfl

theorem drop_succ_of_drop_cons {l : List Char} {n : Nat} {a : Char}
    {as : List Char} (h : l.drop n = a :: as) : l.drop (n + 1) = as := by
  rw [← List.drop_drop 1 n l, h]
  rfl

theorem range_map_levRec (A B : List Char) (jj m i : Nat) :
    (List.range (m + 1)).map (fun k => levRec A B (i + k + 1) jj)
      = levRec A B (i + 1) jj
        :: (List.range m).map (fun k => levRec A B (i + 1 + k + 1) jj) := by
  rw [List.range_succ_eq_map]
  simp only [List.map_cons, List.map_map, Function.comp, Nat.succ_eq_add_one]
  congr 1
  apply List.map_congr_left
  intro k _
  show levRec A B (i + (k + 1) + 1) jj = levRec A B (i + 1 + k + 1) jj
  have hx : i + (k + 1) + 1 = i + 1 + k + 1 := by omega
  rw [hx]

theorem levInner_spec (A B : List Char) (j : Nat) (code_b : Char)
    (hb : code_b = B.getD j ' ') :
    ∀ (As : List Char) (i distA result : Nat),
      As = A.drop i →
      distA = levRec A B i j →
      (result = levRec A B i (j + 1) ∨ (i = 0 ∧ result = j)) →
      levInner code_b As
          ((List.range As.length).map (fun k => levRec A B (i + k + 1) j))
          distA result
        = ((List.range As.length).map (fun k => levRec A B (i + k + 1) (j + 1)),
            if As.isEmpty then result else levRec A B (i + As.length) (j + 1)) := by
  intro As
  induction As with
  | nil =>
    intro i distA result hAs hdist hres
    simp [levInner]
  | cons a as ih =>
    intro i distA result hAs hdist hres
    have ha : a = A.getD i ' ' := (getD_of_drop_cons hAs.symm).symm
    have has : as = A.drop (i + 1) := (drop_succ_of_drop_cons hAs.symm).symm
    rw [List.length_cons, range_map_levRec A B j as.length i,
      range_map_levRec A B (j + 1) as.length i]
    simp only [levInner]
    have hcost : (if a == code_b then distA else distA + 1)
        = levRec A B i j + (if A.getD i ' ' == B.getD j ' ' then 0 else 1) := by
      rw [← ha, ← hb, hdist]
      split_ifs <;> omega
    have hr2 : levMerge (levRec A B (i + 1) j) result
        (if a == code_b then distA else distA + 1)
        = levRec A B (i + 1) (j + 1) := by
      rw [hcost, levMerge_eq_min, levRec_step]
      rcases hres with hres | ⟨hi, hres⟩
      · rw [hres]
      · subst hi
        rw [hres, levRec_zero_left, levRec_zero_left]
        split_ifs <;> (simp only [Nat.min_def]; split_ifs <;> omega)
    rw [hr2]
    rw [ih (i + 1) (levRec A B (i + 1) j) (levRec A B (i + 1) (j + 1)) has rfl
      (Or.inl rfl)]
    simp only [Prod.mk.injEq, List.isEmpty_cons, true_and, Bool.false_eq_true,
      if_false]
    cases as with
    | nil => simp
    | cons b bs =>
      simp only [List.isEmpty_cons, Bool.false_eq_true, if_false,
        List.length_cons]
      have hx : i + 1 + (bs.length + 1) = i + (bs.length + 1 + 1) := by omega
      rw [hx]

theorem levOuter_spec (A B : List Char) (hA : A ≠ []) :
    ∀ (Bs : List Char) (j res : Nat),
      Bs = B.drop j →
      levOuter A Bs j
          ((List.range A.length).map (fun k => levRec A B (k + 1) j)) res
        = if Bs.isEmpty then res else levRec A B A.length B.length := by
  intro Bs
  induction Bs with
  | nil =>
    intro j res hB
    simp [levOuter]
  | cons code_b bs ih =>
    intro j res hB
    have hb : code_b = B.getD j ' ' := (getD_of_drop_cons hB.symm).symm
    have hbs : bs = B.drop (j + 1) := (drop_succ_of_drop_cons hB.symm).symm
    simp only [levOuter]
    have hshift : ∀ jj : Nat,
        (List.range A.length).map (fun k => levRec A B (k + 1) jj)
          = (List.range A.length).map (fun k => levRec A B (0 + k + 1) jj) := by
      intro jj
      apply List.map_congr_left
      intro k _
      have hx : k + 1 = 0 + k + 1 := by omega
      rw [hx]
    rw [hshift j]
    rw [levInner_spec A B j code_b hb A 0 j j (List.drop_zero A).symm
      (levRec_zero_left A B j).symm (Or.inr ⟨rfl, rfl⟩)]
    have hAe : A.isEmpty = false := by
      cases A with
      | nil => exact absurd rfl hA
      | cons x xs => rfl
    rw [hAe]
    simp only [Bool.false_eq_true, if_neg, not_false_eq_true]
    rw [← hshift (j + 1)]
    have hzl : 0 + A.length = A.length := by omega
    rw [hzl]
    rw [ih (j + 1) (levRec A B A.length (j + 1)) hbs]
    cases bs with
    | nil =>
      have hlen : B.length = j + 1 := by
        have h1 : (B.drop j).length = 1 := by rw [← hB]; rfl
        rw [List.length_drop] at h1
        have h2 : B.drop (j + 1) = [] := hbs.symm
        have h3 : B.length - (j + 1) = 0 := by
          rw [← List.length_drop, h2]
          rfl
        omega
      simp [hlen]
    | cons c cs => simp

theorem levenshtein_distance_eq_levRec (a b : String) :
    levenshtein_distance a b = levRec a.data b.data a.data.length b.data.length := by
  simp only [levenshtein_distance]
  split_ifs with h1 h2 h3
  · have hab : a = b := eq_of_beq h1
    subst hab
    exact (levRec_self a.data a.data.length).symm
  · have h2e : a.data.length = 0 := by simpa using h2
    rw [h2e, levRec_zero_left]
  · have h3e : b.data.length = 0 := by simpa using h3
    rw [h3e, levRec_zero_right]
  · have hA : a.data ≠ [] := by
      intro hnil
      apply h2
      rw [hnil]
      rfl
    have hB : b.data ≠ [] := by
      intro hnil
      apply h3
      rw [hnil]
      rfl
    have hcache : (List.range a.data.length).map (fun i => i + 1)
        = (List.range a.data.length).map
            (fun k => levRec a.data b.data (k + 1) 0) := by
      apply List.map_congr_left
      intro k _
      rw [levRec_zero_right]
    rw [hcache]
    rw [levOuter_spec a.data b.data hA b.data 0 0 (List.drop_zero b.data).symm]
    have hBe : b.data.isEmpty = false := by
      cases hx : b.data with
      | nil => exact absurd hx hB
      | cons c cs => rfl
    rw [hBe]
    simp

/-! ## Claim theorems: the suggester -/

/-- Claim C3: for every non-empty candidate list, did_you_mean returns the
candidate of minimal unit-cost insert/delete/substitute Levenshtein
distance to the attempted name (the implemented rolling-vector distance
provably equals the textbook recurrence levRec), ties resolved to the
lexicographically first candidate; in particular for candidate list [name]
and attempted nam the suggestion is name. -/
theorem c3_did_you_mean_minimal :
    (∀ (possibilities : List String) (tried : String), possibilities ≠ [] →
      ∃ w, did_you_mean possibilities tried = some w ∧ w ∈ possibilities ∧
        ∀ w2 ∈ possibilities,
          levenshtein_distance w tried < levenshtein_distance w2 tried
          ∨ (levenshtein_distance w tried = levenshtein_distance w2 tried
              ∧ strLe w w2 = true))
    ∧ did_you_mean ["name"] "nam" = some "name"
    ∧ (∀ a b : String,
        levenshtein_distance a b = levRec a.data b.data a.data.length b.data.length) := by
  refine ⟨?_, by decide, fun a b => levenshtein_distance_eq_levRec a b⟩
  intro ps tried hne
  have hpairs :
      ps.map (fun word => (levenshtein_distance word tried, word)) ≠ [] := by
    simpa using hne
  obtain ⟨h, rest, hsort, hmem, hmin⟩ := sortPairs_head_min _ hpairs
  rw [List.mem_map] at hmem
  obtain ⟨w, hw, hww⟩ := hmem
  subst hww
  refine ⟨w, ?_, hw, ?_⟩
  · simp only [did_you_mean]
    rw [hsort]
    rfl
  · intro w2 hw2
    have hq := hmin (levenshtein_distance w2 tried, w2)
      (List.mem_map_of_mem _ hw2)
    rw [pairLe_iff] at hq
    exact hq

/-- Claim C3 witness: the suggester applied to a concrete non-empty
candidate list. -/
theorem c3_witness :
    ∃ w, did_you_mean ["nme", "name"] "nam" = some w ∧ w ∈ ["nme", "name"] ∧
      ∀ w2 ∈ ["nme", "name"],
        levenshtein_distance w "nam" < levenshtein_distance w2 "nam"
        ∨ (levenshtein_distance w "nam" = levenshtein_distance w2 "nam"
            ∧ strLe w w2 = true) :=
  c3_did_you_mean_minimal.1 ["nme", "name"] "nam" (by decide)

/-! ## Lemmas for the scope engine -/

theorem bindVar_tail (n : String) (v : Int)
    (l : List (List (String × Int))) : (bindVar n v l).tail = l.tail := by
  cases l <;> rfl

mutual

theorem evalStmt_preserves_outer (s : Stmt) (st st2 : EvalState)
    (h : evalStmt s st = .ok st2) : st2.varFrames.tail = st.varFrames.tail := by
  cases s with
  | defCmd n b =>
    simp only [evalStmt] at h
    cases h
    rfl
  | hideName n =>
    simp only [evalStmt] at h
    split_ifs at h
    · cases h; rfl
    · cases h; rfl
  | letEnv n v =>
    simp only [evalStmt] at h
    cases h
    rfl
  | letVar n v =>
    simp only [evalStmt] at h
    cases h
    exact bindVar_tail n v st.varFrames
  | ifStmt cond b1 b2 =>
    simp only [evalStmt] at h
    cases cond with
    | true =>
      simp only [if_pos] at h
      cases heval : evalStmts b1 { st with varFrames := [] :: st.varFrames } with
      | error e => rw [heval] at h; cases h
      | ok st3 =>
        rw [heval] at h
        cases h
        have := evalStmts_preserves_outer b1
          { st with varFrames := [] :: st.varFrames } st3 heval
        simp at this
        simp [this]
    | false =>
      simp only [Bool.false_eq_true, if_neg, not_false_eq_true] at h
      cases heval : evalStmts b2 { st with varFrames := [] :: st.varFrames } with
      | error e => rw [heval] at h; cases h
      | ok st3 =>
        rw [heval] at h
        cases h
        have := evalStmts_preserves_outer b2
          { st with varFrames := [] :: st.varFrames } st3 heval
        simp at this
        simp [this]

theorem evalStmts_preserves_outer (ss : List Stmt) (st st2 : EvalState)
    (h : evalStmts ss st = .ok st2) : st2.varFrames.tail = st.varFrames.tail := by
  cases ss with
  | nil =>
    simp only [evalStmts] at h
    cases h
    rfl
  | cons s rest =>
    simp only [evalStmts] at h
    cases hs : evalStmt s st with
    | error e => rw [hs] at h; cases h
    | ok st1 =>
      rw [hs] at h
      have t1 := evalStmt_preserves_outer s st st1 hs
      have t2 := evalStmts_preserves_outer rest st1 st2 h
      rw [t2, t1]

end

/-! ## Claim theorems: scope and blocks -/

/-- Claim C7: variable bindings created inside an inner block are discarded
on every block exit — evaluating a conditional leaves the variable frames
exactly as before — and the cited scenario (binding x inside both branches
of a conditional, then reading x) fails with a variable-not-found error. -/
theorem c7_no_scope_leak :
    (∀ (cond : Bool) (b1 b2 : List Stmt) (st st2 : EvalState),
        evalStmt (.ifStmt cond b1 b2) st = .ok st2 →
        st2.varFrames = st.varFrames)
    ∧ runProgram ⟨[.ifStmt false [.letVar "x" 10] [.letVar "x" 20]],
        .varRead "x"⟩ = .error .variableNotFound := by
  constructor
  · intro cond b1 b2 st st2 h
    simp only [evalStmt] at h
    cases cond with
    | true =>
      simp only [if_pos] at h
      cases heval : evalStmts b1 { st with varFrames := [] :: st.varFrames } with
      | error e => rw [heval] at h; cases h
      | ok st3 =>
        rw [heval] at h
        cases h
        have := evalStmts_preserves_outer b1
          { st with varFrames := [] :: st.varFrames } st3 heval
        simpa using this
    | false =>
      simp only [Bool.false_eq_true, if_neg, not_false_eq_true] at h
      cases heval : evalStmts b2 { st with varFrames := [] :: st.varFrames } with
      | error e => rw [heval] at h; cases h
      | ok st3 =>
        rw [heval] at h
        cases h
        have := evalStmts_preserves_outer b2
          { st with varFrames := [] :: st.varFrames } st3 heval
        simpa using this
  · rfl

/-- Claim C7 witness: frame preservation applied to a concrete conditional
evaluation. -/
theorem c7_witness :
    (⟨[], [], [[]]⟩ : EvalState).varFrames = initState.varFrames :=
  c7_no_scope_leak.1 true [.letVar "x" 1] [] initState ⟨[], [], [[]]⟩ rfl

/-- Claim C1 counterexample: the cited command scenario
def foo; hide foo; def foo; foo does not evaluate to bar — the block is
rejected at parse time with the defined-more-than-once error, exactly as
the repository test hides_def_then_redefines expects. -/
theorem c1_counterexample :
    runProgram ⟨[.defCmd "foo" "foo", .hideName "foo", .defCmd "foo" "bar"],
        .callCmd "foo"⟩ = .error (.parse (.duplicateDeclaration "foo"))
    ∧ runProgram ⟨[.defCmd "foo" "foo", .hideName "foo", .defCmd "foo" "bar"],
        .callCmd "foo"⟩ ≠ .ok "bar" := by
  constructor
  · rfl
  · intro hcontra
    rw [show runProgram ⟨[.defCmd "foo" "foo", .hideName "foo",
        .defCmd "foo" "bar"], .callCmd "foo"⟩
      = .error (.parse (.duplicateDeclaration "foo")) from rfl] at hcontra
    exact Except.noConfusion hcontra

/-- Claim C1 (amended): a binding re-declared after a hide resolves to the
new declaration only and the hidden one is never resurrected — for the
environment table the cited scenario yields bar — but for commands the
same-block redeclaration is rejected at parse time with defined more than
once (the cited def scenario fails rather than evaluating to bar). -/
theorem c1_hide_then_redefine :
    (∀ (events : List EnvEvent) (n v : String),
        resolveEnv (EnvEvent.set n v :: events) n = some v)
    ∧ (∀ (events : List DeclEvent) (n b : String),
        resolveDecl (DeclEvent.decl n b :: events) n = some b)
    ∧ runProgram ⟨[.letEnv "foo" "foo", .hideName "foo", .letEnv "foo" "bar"],
        .envRead "foo"⟩ = .ok "bar"
    ∧ runProgram ⟨[.defCmd "foo" "foo", .hideName "foo", .defCmd "foo" "bar"],
        .callCmd "foo"⟩ = .error (.parse (.duplicateDeclaration "foo")) := by
  refine ⟨?_, ?_, rfl, rfl⟩
  · intro events n v
    simp [resolveEnv]
  · intro events n b
    simp [resolveDecl]

theorem checkDup_of_dup :
    ∀ l : List String, ¬ l.Nodup →
      ∃ n, 2 ≤ l.count n ∧ checkDup l = .error (.duplicateDeclaration n) := by
  intro l
  induction l with
  | nil => intro h; exact absurd List.nodup_nil h
  | cons x xs ih =>
    intro h
    by_cases hx : x ∈ xs
    · refine ⟨x, ?_, by simp [checkDup, hx]⟩
      have h1 : 0 < xs.count x := List.count_pos_iff.mpr hx
      rw [List.count_cons_self]
      omega
    · have hxs : ¬ xs.Nodup := fun hnd => h (List.nodup_cons.mpr ⟨hx, hnd⟩)
      obtain ⟨n, hc, he⟩ := ih hxs
      refine ⟨n, ?_, by simp [checkDup, hx, he]⟩
      calc 2 ≤ xs.count n := hc
        _ ≤ (x :: xs).count n := List.count_le_count_cons n x xs

/-- Claim C2: a block declaring two commands under the same name fails at
finalize time with the defined-more-than-once (duplicate declaration)
error, and the whole program run reports that parse error — evaluation of
the block never starts, whatever the final expression would do. -/
theorem c2_duplicate_def_fails (stmts : List Stmt) (res : Expr)
    (h : ¬ (defNames stmts).Nodup) :
    ∃ n, 2 ≤ (defNames stmts).count n
      ∧ finalizeBlock stmts = .error (.duplicateDeclaration n)
      ∧ runProgram ⟨stmts, res⟩ = .error (.parse (.duplicateDeclaration n)) := by
  obtain ⟨n, hc, he⟩ := checkDup_of_dup _ h
  exact ⟨n, hc, by simp [finalizeBlock, he],
    by simp [runProgram, finalizeBlock, he]⟩

/-- Claim C2 witness: the duplicate check at a concrete two-definition
block. -/
theorem c2_witness :
    ∃ n, 2 ≤ (defNames [Stmt.defCmd "foo" "foo", Stmt.defCmd "foo" "bar"]).count n
      ∧ finalizeBlock [Stmt.defCmd "foo" "foo", Stmt.defCmd "foo" "bar"]
          = .error (.duplicateDeclaration n)
      ∧ runProgram ⟨[Stmt.defCmd "foo" "foo", Stmt.defCmd "foo" "bar"],
          .callCmd "foo"⟩ = .error (.parse (.duplicateDeclaration n)) :=
  c2_duplicate_def_fails [Stmt.defCmd "foo" "foo", Stmt.defCmd "foo" "bar"]
    (.callCmd "foo") (by decide)

/-- Claim C8: importing a name the target module does not export fails with
the could-not-find-import diagnostic naming the missing symbol, and a
single-name import of a name exported both as a command and as an
environment binding imports both bindings together. -/
theorem c8_import_resolution :
    (∀ (m : NuModule) (n : String),
        m.exportedDecls.lookup n = none → m.exportedEnvs.lookup n = none →
        resolveImport m (.one n) = .error (.couldNotFindImport n))
    ∧ (∀ (m : NuModule) (n b v : String),
        m.exportedDecls.lookup n = some b → m.exportedEnvs.lookup n = some v →
        resolveImport m (.one n) = .ok ⟨[(n, b)], [(n, v)]⟩) := by
  constructor
  · intro m n h1 h2
    simp [resolveImport, resolveImportName, h1, h2]
  · intro m n b v h1 h2
    simp [resolveImport, resolveImportName, h1, h2]

/-- Claim C8 witness: import resolution on a concrete module exporting the
same name as both a command and an environment binding, plus an internal
unexported command. -/
theorem c8_witness :
    resolveImport ⟨[("foo", "bar")], [("foo", "foo")], [("b", "2")]⟩ (.one "foo")
      = .ok ⟨[("foo", "bar")], [("foo", "foo")]⟩
    ∧ resolveImport ⟨[("foo", "bar")], [("foo", "foo")], [("b", "2")]⟩ (.one "c")
      = .error (.couldNotFindImport "c") :=
  ⟨c8_import_resolution.2 ⟨[("foo", "bar")], [("foo", "foo")], [("b", "2")]⟩
      "foo" "bar" "foo" rfl rfl,
   c8_import_resolution.1 ⟨[("foo", "bar")], [("foo", "foo")], [("b", "2")]⟩
      "c" rfl rfl⟩
